import Mathlib

/-!
Verification of the segment reconciliation pipeline of
`whisper-local-transcribe` (`src/transcribe.ipynb`).

The notebook cell titled Clean up and combine segments tags each raw whisper
segment with a speaker label and a trimmed text, concatenates the two
speaker streams, stably sorts the result by `start`, and then collapses
consecutive same-speaker entries (dropping entries whose text is exactly
`"."`).  The "Create output" cell renders the merged segments as Markdown
with `MM:SS` timestamps.

Timestamps (Python floats in the source) are modelled as rationals; the
merge logic only compares and copies them.
-/

namespace WhisperTranscribe

/-- A raw segment as produced by the transcription engine:
with fields id, text, start, end (notebook: `segment["id"]` and so on). -/
structure RawSegment where
  id : Int
  text : String
  start : ℚ
  «end» : ℚ
deriving DecidableEq

/-- The record shape used both for the combined (tagged) segments and the
merged output segments in the notebook:
`{speaker, text, original_ids, start, end}`. -/
structure Seg where
  speaker : String
  text : String
  original_ids : List Int
  start : ℚ
  «end» : ℚ
deriving DecidableEq

instance : Inhabited Seg := ⟨⟨"", "", [], 0, 0⟩⟩

/-- Model of the Python expression `str.strip` applied with a space argument:
remove leading and trailing ASCII space characters (only the space
character, not general whitespace). -/
def stripSpaces (s : String) : String :=
  String.mk (((s.toList.dropWhile (· = ' ')).reverse.dropWhile (· = ' ')).reverse)

/-- The per-stream tagging loop of the notebook: one combined record per raw
segment, with the speaker label attached, the text stripped of ASCII
spaces, and `original_ids` seeded with the single raw id. -/
def attach (segments : List RawSegment) (speaker : String) : List Seg :=
  segments.map fun segment =>
    { speaker := speaker
      text := stripSpaces segment.text
      original_ids := [segment.id]
      start := segment.start
      «end» := segment.«end» }

/-- Model of `sorted(combinedSegments, key=lambda d: d["start"])`: the Python
builtin `sorted` is a stable sort by the key, modelled by `List.mergeSort`
on the `start`-comparison. -/
def sortStart (l : List Seg) : List Seg :=
  l.mergeSort fun a b => decide (a.start ≤ b.start)

/-- The absorption branch of the collapse loop: append the first element of
the `original_ids` of the current segment, replace `end` with the `end` of
the current segment, and append a space and the current text. -/
def absorb (last segment : Seg) : Seg :=
  { last with
      original_ids := last.original_ids ++ [segment.original_ids.headD 0]
      «end» := segment.«end»
      text := last.text ++ " " ++ segment.text }

/-- One iteration of the collapse loop body, acting on the output list built
so far (`outputSegments`) and the current `segment`. -/
def loopBody (outputSegments : List Seg) (segment : Seg) : List Seg :=
  if segment.text = "." then
    outputSegments
  else if outputSegments.length = 0 ∨
      segment.speaker ≠ (outputSegments.getLastD default).speaker then
    outputSegments ++ [segment]
  else
    outputSegments.dropLast ++ [absorb (outputSegments.getLastD default) segment]

/-- The collapse loop of the notebook: fold the loop body over the sorted
combined segments, starting from the empty output list. -/
def outputSegments (combinedSegments : List Seg) : List Seg :=
  combinedSegments.foldl loopBody []

/-- The whole merge step: stable sort by `start`, then collapse. -/
def merge (l : List Seg) : List Seg :=
  outputSegments (sortStart l)

/-- The complete reconciliation pipeline of the notebook cell: tag both
streams, concatenate (interviewer first), sort, collapse. -/
def pipeline (interviewer interviewee : List RawSegment)
    (interviewerName participantName : String) : List Seg :=
  outputSegments (sortStart
    (attach interviewer interviewerName ++ attach interviewee participantName))

/-! ## A structurally recursive form of the collapse loop

The fold above mutates the last element of the output list, which is awkward
for induction.  `collapseGo cur l` carries the currently open merged segment
explicitly; `collapseRec` is proved equal to `outputSegments` below. -/

/-- Collapse with the currently open merged segment carried explicitly. -/
def collapseGo (cur : Seg) : List Seg → List Seg
  | [] => [cur]
  | s :: rest =>
    if s.text = "." then collapseGo cur rest
    else if s.speaker = cur.speaker then collapseGo (absorb cur s) rest
    else cur :: collapseGo s rest

/-- Recursive form of the collapse loop. -/
def collapseRec : List Seg → List Seg
  | [] => []
  | s :: rest => if s.text = "." then collapseRec rest else collapseGo s rest

theorem foldl_loopBody_eq_collapseGo (l : List Seg) :
    ∀ (acc : List Seg) (cur : Seg),
      l.foldl loopBody (acc ++ [cur]) = acc ++ collapseGo cur l := by
  induction l with
  | nil => intro acc cur; simp [collapseGo]
  | cons s rest ih =>
    intro acc cur
    by_cases hdot : s.text = "."
    · simp [List.foldl_cons, loopBody, hdot, collapseGo, ih]
    · by_cases hspk : s.speaker = cur.speaker
      · have : loopBody (acc ++ [cur]) s =
            acc ++ [absorb cur s] := by
          simp [loopBody, hdot, hspk]
        rw [List.foldl_cons, this, ih]
        simp [collapseGo, hdot, hspk]
      · have : loopBody (acc ++ [cur]) s =
            (acc ++ [cur]) ++ [s] := by
          simp [loopBody, hdot, hspk]
        rw [List.foldl_cons, this, ih]
        simp [collapseGo, hdot, hspk]

theorem outputSegments_eq_collapseRec (l : List Seg) :
    outputSegments l = collapseRec l := by
  cases l with
  | nil => rfl
  | cons s rest =>
    by_cases hdot : s.text = "."
    · rw [outputSegments, List.foldl_cons]
      have hstep : loopBody [] s = [] := by simp [loopBody, hdot]
      rw [hstep, collapseRec]
      simp only [hdot, if_pos rfl, ← outputSegments_eq_collapseRec rest]
      rfl
    · rw [outputSegments, List.foldl_cons]
      have hstep : loopBody [] s = [s] := by simp [loopBody, hdot]
      rw [hstep]
      have h := foldl_loopBody_eq_collapseGo rest [] s
      simp only [List.nil_append] at h
      rw [h, collapseRec]
      simp [hdot]
termination_by l.length
decreasing_by simp [List.length_cons]

/-! ## Run decomposition

The collapse loop processes maximal runs of consecutive same-speaker
segments (after dropping `"."`-segments).  `splitRuns` computes that run
decomposition; `mergeRun` is the fold of `absorb` over one run. -/

/-- The filter applied inside the collapse loop: keep a segment unless its
text is exactly `"."`. -/
def keep (s : Seg) : Bool := s.text ≠ "."

/-- Group a list into maximal runs of consecutive equal-speaker segments,
with the current (nonempty) run carried explicitly. -/
def splitRunsGo (run : List Seg) : List Seg → List (List Seg)
  | [] => [run]
  | s :: rest =>
    if s.speaker = (run.headD default).speaker then splitRunsGo (run ++ [s]) rest
    else run :: splitRunsGo [s] rest

/-- Maximal runs of consecutive equal-speaker segments. -/
def splitRuns : List Seg → List (List Seg)
  | [] => []
  | s :: rest => splitRunsGo [s] rest

/-- Collapse one run into a single merged segment by absorbing every member
after the first. -/
def mergeRun (run : List Seg) : Seg :=
  match run with
  | [] => default
  | first :: rest => rest.foldl absorb first

@[simp] theorem absorb_speaker (a s : Seg) : (absorb a s).speaker = a.speaker := rfl

@[simp] theorem absorb_start (a s : Seg) : (absorb a s).start = a.start := rfl

@[simp] theorem foldl_absorb_speaker (rest : List Seg) (f : Seg) :
    (rest.foldl absorb f).speaker = f.speaker := by
  induction rest generalizing f with
  | nil => rfl
  | cons s rest ih => simp [List.foldl_cons, ih]

@[simp] theorem foldl_absorb_start (rest : List Seg) (f : Seg) :
    (rest.foldl absorb f).start = f.start := by
  induction rest generalizing f with
  | nil => rfl
  | cons s rest ih => simp [List.foldl_cons, ih]

@[simp] theorem mergeRun_cons_speaker (f : Seg) (rest : List Seg) :
    (mergeRun (f :: rest)).speaker = f.speaker := by
  simp [mergeRun]

@[simp] theorem mergeRun_cons_start (f : Seg) (rest : List Seg) :
    (mergeRun (f :: rest)).start = f.start := by
  simp [mergeRun]

/-- Dropping the `"."`-segments up front does not change the collapse. -/
theorem collapseGo_filter (l : List Seg) (cur : Seg) :
    collapseGo cur l = collapseGo cur (l.filter keep) := by
  induction l generalizing cur with
  | nil => rfl
  | cons s rest ih =>
    by_cases hdot : s.text = "."
    · have : keep s = false := by simp [keep, hdot]
      simp [collapseGo, hdot, List.filter_cons, this, ih]
    · have : keep s = true := by simp [keep, hdot]
      by_cases hspk : s.speaker = cur.speaker <;>
        simp [collapseGo, hdot, hspk, List.filter_cons, this, ih]

/-- Dropping the `"."`-segments up front does not change the collapse. -/
theorem collapseRec_filter (l : List Seg) :
    collapseRec l = collapseRec (l.filter keep) := by
  induction l with
  | nil => rfl
  | cons s rest ih =>
    by_cases hdot : s.text = "."
    · have : keep s = false := by simp [keep, hdot]
      simp [collapseRec, hdot, List.filter_cons, this, ih]
    · have : keep s = true := by simp [keep, hdot]
      simp [collapseRec, hdot, List.filter_cons, this, collapseGo_filter]

/-- On a `"."`-free list, the collapse with open segment `mergeRun run`
produces exactly the merges of the runs of `splitRunsGo run`. -/
theorem collapseGo_eq_runs (l : List Seg) :
    ∀ (f : Seg) (r : List Seg), (∀ s ∈ l, s.text ≠ ".") →
      collapseGo (mergeRun (f :: r)) l =
        (splitRunsGo (f :: r) l).map mergeRun := by
  induction l with
  | nil => intro f r _; simp [collapseGo, splitRunsGo]
  | cons s rest ih =>
    intro f r hnd
    have hs : s.text ≠ "." := hnd s (by simp)
    have hrest : ∀ x ∈ rest, x.text ≠ "." := fun x hx => hnd x (by simp [hx])
    by_cases hspk : s.speaker = f.speaker
    · have hcur : s.speaker = (mergeRun (f :: r)).speaker := by simp [hspk]
      have habs : absorb (mergeRun (f :: r)) s = mergeRun ((f :: r) ++ [s]) := by
        simp [mergeRun, List.foldl_append]
      simp only [collapseGo, if_neg hs, if_pos hcur, habs]
      rw [splitRunsGo, if_pos (by simpa using hspk)]
      simpa [List.cons_append] using ih f (r ++ [s]) hrest
    · have hcur : ¬ s.speaker = (mergeRun (f :: r)).speaker := by simpa using hspk
      simp only [collapseGo, if_neg hs, if_neg hcur]
      rw [splitRunsGo, if_neg (by simpa using hspk), List.map_cons]
      congr 1
      simpa [mergeRun] using ih s [] hrest

/-- On a `"."`-free list, the collapse loop merges exactly the maximal
same-speaker runs. -/
theorem collapseRec_eq_runs (l : List Seg) (hnd : ∀ s ∈ l, s.text ≠ ".") :
    collapseRec l = (splitRuns l).map mergeRun := by
  cases l with
  | nil => rfl
  | cons s rest =>
    have hs : s.text ≠ "." := hnd s (by simp)
    have hrest : ∀ x ∈ rest, x.text ≠ "." := fun x hx => hnd x (by simp [hx])
    rw [collapseRec, if_neg hs, splitRuns]
    simpa [mergeRun] using collapseGo_eq_runs rest s [] hrest

/-- Master decomposition: the collapse loop output is exactly one merged
segment per maximal same-speaker run of the `"."`-filtered input. -/
theorem outputSegments_eq_runs (l : List Seg) :
    outputSegments l = (splitRuns (l.filter keep)).map mergeRun := by
  rw [outputSegments_eq_collapseRec, collapseRec_filter]
  apply collapseRec_eq_runs
  intro s hs
  have := List.of_mem_filter hs
  simpa [keep] using this

/-! ## Structural properties of the run decomposition -/

theorem splitRunsGo_flatten (l : List Seg) :
    ∀ run : List Seg, (splitRunsGo run l).flatten = run ++ l := by
  induction l with
  | nil => intro run; simp [splitRunsGo]
  | cons s rest ih =>
    intro run
    by_cases h : s.speaker = (run.headD default).speaker
    · rw [splitRunsGo, if_pos h, ih]
      simp
    · rw [splitRunsGo, if_neg h]
      simp [ih]

theorem splitRuns_flatten (l : List Seg) : (splitRuns l).flatten = l := by
  cases l with
  | nil => rfl
  | cons s rest => rw [splitRuns, splitRunsGo_flatten]; rfl

theorem splitRunsGo_ne_nil (l : List Seg) :
    ∀ run : List Seg, run ≠ [] → ∀ x ∈ splitRunsGo run l, x ≠ [] := by
  induction l with
  | nil =>
    intro run hrun x hx
    rw [splitRunsGo] at hx
    simp only [List.mem_singleton] at hx
    subst hx
    exact hrun
  | cons s rest ih =>
    intro run hrun x hx
    by_cases h : s.speaker = (run.headD default).speaker
    · rw [splitRunsGo, if_pos h] at hx
      exact ih (run ++ [s]) (by simp) x hx
    · rw [splitRunsGo, if_neg h] at hx
      rcases List.mem_cons.mp hx with rfl | hx
      · exact hrun
      · exact ih [s] (by simp) x hx

theorem splitRuns_ne_nil (l : List Seg) : ∀ x ∈ splitRuns l, x ≠ [] := by
  cases l with
  | nil => intro x hx; simp [splitRuns] at hx
  | cons s rest => exact splitRunsGo_ne_nil rest [s] (by simp)

/-- The first emitted run extends the carried run. -/
theorem splitRunsGo_head (l : List Seg) :
    ∀ run : List Seg, ∃ t rs, splitRunsGo run l = (run ++ t) :: rs := by
  induction l with
  | nil => intro run; exact ⟨[], [], by simp [splitRunsGo]⟩
  | cons s rest ih =>
    intro run
    by_cases h : s.speaker = (run.headD default).speaker
    · obtain ⟨t, rs, ht⟩ := ih (run ++ [s])
      exact ⟨[s] ++ t, rs, by rw [splitRunsGo, if_pos h, ht]; simp⟩
    · exact ⟨[], splitRunsGo [s] rest, by rw [splitRunsGo, if_neg h]; simp⟩

/-- Adjacent produced runs have different (merged) speakers: each run is
closed precisely when a segment with a different speaker arrives. -/
theorem splitRunsGo_chain (l : List Seg) :
    ∀ (f : Seg) (r : List Seg),
      List.Chain' (fun r1 r2 => (mergeRun r1).speaker ≠ (mergeRun r2).speaker)
        (splitRunsGo (f :: r) l) := by
  induction l with
  | nil => intro f r; simp [splitRunsGo]
  | cons s rest ih =>
    intro f r
    by_cases h : s.speaker = ((f :: r).headD default).speaker
    · rw [splitRunsGo, if_pos h]
      have := ih f (r ++ [s])
      simpa [List.cons_append] using this
    · rw [splitRunsGo, if_neg h]
      rw [List.chain'_cons']
      refine ⟨?_, ih s []⟩
      intro b hb
      obtain ⟨t, rs, ht⟩ := splitRunsGo_head rest [s]
      rw [ht] at hb
      simp only [List.head?_cons, Option.mem_def, Option.some.injEq] at hb
      subst hb
      simp only [List.cons_append, mergeRun_cons_speaker]
      simpa using fun hh => h (by simpa using hh.symm)

/-- Same chain property, stated on the run heads. -/
theorem splitRunsGo_chain_head (l : List Seg) :
    ∀ (f : Seg) (r : List Seg),
      List.Chain'
        (fun r1 r2 => (r1.headD default).speaker ≠ (r2.headD default).speaker)
        (splitRunsGo (f :: r) l) := by
  induction l with
  | nil => intro f r; simp [splitRunsGo]
  | cons s rest ih =>
    intro f r
    by_cases h : s.speaker = ((f :: r).headD default).speaker
    · rw [splitRunsGo, if_pos h]
      have := ih f (r ++ [s])
      simpa [List.cons_append] using this
    · rw [splitRunsGo, if_neg h]
      rw [List.chain'_cons']
      refine ⟨?_, ih s []⟩
      intro b hb
      obtain ⟨t, rs, ht⟩ := splitRunsGo_head rest [s]
      rw [ht] at hb
      simp only [List.head?_cons, Option.mem_def, Option.some.injEq] at hb
      subst hb
      simp only [List.cons_append, List.headD_cons]
      simpa using fun hh => h (by simpa using hh.symm)

/-- Every produced run has a constant speaker (that of its head). -/
theorem splitRunsGo_speaker (l : List Seg) :
    ∀ (f : Seg) (r : List Seg), (∀ x ∈ f :: r, x.speaker = f.speaker) →
      ∀ run ∈ splitRunsGo (f :: r) l, ∀ x ∈ run,
        x.speaker = (run.headD default).speaker := by
  induction l with
  | nil =>
    intro f r hconst run hrun x hx
    rw [splitRunsGo] at hrun
    simp only [List.mem_singleton] at hrun
    subst hrun
    simpa using hconst x hx
  | cons s rest ih =>
    intro f r hconst run hrun x hx
    by_cases h : s.speaker = ((f :: r).headD default).speaker
    · rw [splitRunsGo, if_pos h] at hrun
      have hconst' : ∀ x ∈ f :: (r ++ [s]), x.speaker = f.speaker := by
        intro y hy
        rcases List.mem_cons.mp hy with rfl | hy
        · rfl
        · rcases List.mem_append.mp hy with hy | hy
          · exact hconst y (by simp [hy])
          · simp only [List.mem_singleton] at hy
            subst hy
            simpa using h
      have := ih f (r ++ [s]) hconst' run (by simpa [List.cons_append] using hrun)
      exact this x hx
    · rw [splitRunsGo, if_neg h] at hrun
      rcases List.mem_cons.mp hrun with rfl | hrun
      · simpa using hconst x hx
      · exact ih s [] (by simp) run hrun x hx

/-- The heads of the produced runs form a sublist of the input (head of the
carried run followed by the remaining segments). -/
theorem splitRunsGo_heads_sublist (l : List Seg) :
    ∀ (f : Seg) (r : List Seg),
      List.Sublist ((splitRunsGo (f :: r) l).map fun x => x.headD default)
        (f :: l) := by
  induction l with
  | nil => intro f r; simp [splitRunsGo]
  | cons s rest ih =>
    intro f r
    by_cases h : s.speaker = ((f :: r).headD default).speaker
    · rw [splitRunsGo, if_pos h, List.cons_append]
      exact (ih f (r ++ [s])).trans
        (List.Sublist.cons₂ f (List.sublist_cons_self s rest))
    · rw [splitRunsGo, if_neg h]
      rw [List.map_cons]
      simpa using List.Sublist.cons₂ f (ih s [])

/-! ## Closed form of a merged run -/

/-- Closed form of the fold of `absorb` over a run: the speaker and `start`
of the first member, the `end` of the last, space-joined texts, and the
full `original_ids` of the first member followed by only the *first* id of every
absorbed member. -/
theorem mergeRun_eq (rest : List Seg) :
    ∀ f : Seg,
      mergeRun (f :: rest) =
        { speaker := f.speaker
          text := rest.foldl (fun t s => t ++ " " ++ s.text) f.text
          original_ids :=
            f.original_ids ++ rest.map fun s => s.original_ids.headD 0
          start := f.start
          «end» := (rest.getLastD f).«end» } := by
  induction rest with
  | nil => intro f; simp [mergeRun]
  | cons s rest' ih =>
    intro f
    have hstep : mergeRun (f :: s :: rest') = mergeRun (absorb f s :: rest') := by
      simp [mergeRun, List.foldl_cons]
    rw [hstep, ih (absorb f s)]
    cases rest' with
    | nil => simp [absorb, List.getLastD_cons]
    | cons u rest'' =>
      simp only [List.getLastD_cons]
      simp [absorb]

/-! ## Sorting helper lemmas -/

theorem leStart_trans :
    ∀ a b c : Seg, (fun a b : Seg => decide (a.start ≤ b.start)) a b →
      (fun a b : Seg => decide (a.start ≤ b.start)) b c →
      (fun a b : Seg => decide (a.start ≤ b.start)) a c := by
  intro a b c hab hbc
  simp only [decide_eq_true_eq] at *
  exact le_trans hab hbc

theorem leStart_total :
    ∀ a b : Seg, ((fun a b : Seg => decide (a.start ≤ b.start)) a b ||
      (fun a b : Seg => decide (a.start ≤ b.start)) b a) := by
  intro a b
  simp only [Bool.or_eq_true, decide_eq_true_eq]
  exact le_total a.start b.start

/-- `sortStart` permutes its input. -/
theorem sortStart_perm (l : List Seg) : (sortStart l).Perm l :=
  List.mergeSort_perm l _

/-- `sortStart` sorts by `start`. -/
theorem sortStart_pairwise (l : List Seg) :
    (sortStart l).Pairwise fun a b => a.start ≤ b.start := by
  have := List.sorted_mergeSort leStart_trans leStart_total l
  exact this.imp fun h => by simpa using h

/-- A list already sorted by `start` is left unchanged by `sortStart`. -/
theorem sortStart_of_pairwise (l : List Seg)
    (h : l.Pairwise fun a b => a.start ≤ b.start) : sortStart l = l :=
  List.mergeSort_of_sorted (h.imp fun hab => by simpa using hab)

/-- Stability of `sortStart`: the subsequence of segments with any fixed
`start` value is preserved verbatim. -/
theorem sortStart_filter_start (l : List Seg) (q : ℚ) :
    (sortStart l).filter (fun s => s.start = q) =
      l.filter fun s => s.start = q := by
  have hsub : List.Sublist (l.filter fun s => s.start = q) (sortStart l) := by
    simp only [sortStart]
    apply List.sublist_mergeSort leStart_trans leStart_total
    · apply List.pairwise_of_forall_mem_list
      intro a ha b hb
      have ha' : a.start = q := by simpa using (List.mem_filter.mp ha).2
      have hb' : b.start = q := by simpa using (List.mem_filter.mp hb).2
      simp [ha', hb']
    · exact List.filter_sublist l
  have hperm : ((sortStart l).filter fun s => s.start = q).Perm
      (l.filter fun s => s.start = q) :=
    (sortStart_perm l).filter _
  have hsub2 : List.Sublist (l.filter fun s => s.start = q)
      ((sortStart l).filter fun s => s.start = q) := by
    have := hsub.filter (fun s => decide (s.start = q))
    simpa [List.filter_filter] using this
  exact (hsub2.eq_of_length hperm.length_eq.symm).symm

/-! ## Properties of the merged output -/

theorem mergeRun_start_headD (run : List Seg) (h : run ≠ []) :
    (mergeRun run).start = (run.headD default).start := by
  cases run with
  | nil => exact absurd rfl h
  | cons f rest => simp

theorem mergeRun_speaker_headD (run : List Seg) (h : run ≠ []) :
    (mergeRun run).speaker = (run.headD default).speaker := by
  cases run with
  | nil => exact absurd rfl h
  | cons f rest => simp

theorem space_mem_foldl (rest : List Seg) :
    ∀ acc : String, ' ' ∈ acc.data →
      ' ' ∈ (rest.foldl (fun t s => t ++ " " ++ s.text) acc).data := by
  induction rest with
  | nil => intro acc h; exact h
  | cons s rest' ih =>
    intro acc h
    rw [List.foldl_cons]
    refine ih _ ?_
    simp [String.data_append, h]

/-- A merged run of non-`"."` segments never has text `"."`: a single kept
segment keeps its text, and any absorbed text contains a space. -/
theorem mergeRun_text_ne (f : Seg) (rest : List Seg) (hf : f.text ≠ ".") :
    (mergeRun (f :: rest)).text ≠ "." := by
  cases rest with
  | nil => simpa [mergeRun] using hf
  | cons s rest' =>
    rw [mergeRun_eq]
    intro hcontra
    simp only at hcontra
    have hsp : ' ' ∈ ((s :: rest').foldl
        (fun t s => t ++ " " ++ s.text) f.text).data := by
      rw [List.foldl_cons]
      exact space_mem_foldl rest' _ (by simp [String.data_append])
    rw [hcontra] at hsp
    simp at hsp

/-- No segment produced by the collapse loop has text `"."`. -/
theorem outputSegments_text_ne (l : List Seg) :
    ∀ m ∈ outputSegments l, m.text ≠ "." := by
  intro m hm
  rw [outputSegments_eq_runs] at hm
  obtain ⟨run, hrun, rfl⟩ := List.mem_map.mp hm
  have hne : run ≠ [] := splitRuns_ne_nil _ run hrun
  cases run with
  | nil => exact absurd rfl hne
  | cons f rest =>
    have hfmem : f ∈ (splitRuns (l.filter keep)).flatten :=
      List.mem_flatten.mpr ⟨f :: rest, hrun, by simp⟩
    rw [splitRuns_flatten] at hfmem
    have := List.of_mem_filter hfmem
    exact mergeRun_text_ne f rest (by simpa [keep] using this)

/-- Adjacent segments in the collapse-loop output have different speakers. -/
theorem outputSegments_chain (l : List Seg) :
    List.Chain' (fun a b => a.speaker ≠ b.speaker) (outputSegments l) := by
  rw [outputSegments_eq_runs]
  rw [List.chain'_map]
  cases hm : l.filter keep with
  | nil => simp [splitRuns]
  | cons s rest =>
    rw [splitRuns]
    exact splitRunsGo_chain rest s []

/-- If the input is sorted by `start`, so is the collapse-loop output. -/
theorem outputSegments_pairwise (l : List Seg)
    (h : l.Pairwise fun a b => a.start ≤ b.start) :
    (outputSegments l).Pairwise fun a b => a.start ≤ b.start := by
  rw [outputSegments_eq_runs]
  have hfil : (l.filter keep).Pairwise (fun a b => a.start ≤ b.start) :=
    h.sublist (List.filter_sublist l)
  rw [List.pairwise_map]
  cases hm : l.filter keep with
  | nil => simp [splitRuns]
  | cons s rest =>
    rw [splitRuns]
    have hheads : ((splitRunsGo [s] rest).map fun x => x.headD default).Pairwise
        (fun a b => a.start ≤ b.start) := by
      refine List.Pairwise.sublist (splitRunsGo_heads_sublist rest s []) ?_
      exact hm ▸ hfil
    have hruns := List.pairwise_map.mp hheads
    refine hruns.imp_of_mem ?_
    intro r1 r2 h1 h2 hle
    rw [mergeRun_start_headD r1 (splitRunsGo_ne_nil rest [s] (by simp) r1 h1),
      mergeRun_start_headD r2 (splitRunsGo_ne_nil rest [s] (by simp) r2 h2)]
    exact hle

/-- Collapsing a `"."`-free, speaker-alternating list is the identity. -/
theorem collapseGo_of_alternating (l : List Seg) :
    ∀ cur : Seg, (∀ s ∈ l, s.text ≠ ".") →
      List.Chain' (fun a b => a.speaker ≠ b.speaker) (cur :: l) →
      collapseGo cur l = cur :: l := by
  induction l with
  | nil => intro cur _ _; rfl
  | cons s rest ih =>
    intro cur hnd hch
    have hs : s.text ≠ "." := hnd s (by simp)
    have hR : cur.speaker ≠ s.speaker := (List.chain'_cons.mp hch).1
    have hch' : List.Chain' (fun a b => a.speaker ≠ b.speaker) (s :: rest) :=
      (List.chain'_cons.mp hch).2
    rw [collapseGo, if_neg hs, if_neg (fun hc => hR hc.symm)]
    rw [ih s (fun x hx => hnd x (by simp [hx])) hch']

/-- Collapsing a `"."`-free, speaker-alternating list is the identity. -/
theorem collapseRec_of_alternating (l : List Seg)
    (hnd : ∀ s ∈ l, s.text ≠ ".")
    (hch : List.Chain' (fun a b => a.speaker ≠ b.speaker) l) :
    collapseRec l = l := by
  cases l with
  | nil => rfl
  | cons s rest =>
    rw [collapseRec, if_neg (hnd s (by simp))]
    exact collapseGo_of_alternating rest s (fun x hx => hnd x (by simp [hx])) hch

/-! ## The Markdown renderer ("Create output" cell)

The cell computes startMin, startSec as divmod of start by 60 (same for
end) and interpolates them into a heading line with the 02.0f format.
The Python format %.0f rounds half to even; the 02 width left-pads the
decimal string with 0 to a minimum width of two characters. -/

/-- Round half to even, as the Python format directive does. -/
def roundHalfEven (q : ℚ) : ℤ :=
  if q - ⌊q⌋ < 1/2 then ⌊q⌋
  else if 1/2 < q - ⌊q⌋ then ⌊q⌋ + 1
  else if 2 ∣ ⌊q⌋ then ⌊q⌋ else ⌊q⌋ + 1

/-- The 02.0f directive applied to the rounded value: decimal
representation, left-padded with 0 to a minimum width of two characters. -/
def fmt02 (i : ℤ) : String :=
  if (Int.repr i).length < 2 then "0" ++ Int.repr i else Int.repr i

/-- Python `divmod(x, 60)` on floats: floored quotient and remainder. -/
def divmod60 (q : ℚ) : ℚ × ℚ :=
  ((⌊q / 60⌋ : ℚ), q - 60 * (⌊q / 60⌋ : ℚ))

/-- One iteration of the output loop:
`## [<speaker>] (<MM>:<SS> - <MM>:<SS>)\n<text>\n\n`. -/
def renderSegment (segment : Seg) : String :=
  "## [" ++ segment.speaker ++ "] (" ++
    fmt02 (roundHalfEven (divmod60 segment.start).1) ++ ":" ++
    fmt02 (roundHalfEven (divmod60 segment.start).2) ++ " - " ++
    fmt02 (roundHalfEven (divmod60 segment.«end»).1) ++ ":" ++
    fmt02 (roundHalfEven (divmod60 segment.«end»).2) ++ ")\n" ++
    segment.text ++ "\n\n"

/-- The full Markdown document built by the output cell. -/
def output (participantName : String) (outputSegs : List Seg) : String :=
  outputSegs.foldl (fun out segment => out ++ renderSegment segment)
    ("# Interview " ++ participantName ++ "\n\n")

/-! Spec-side formatting, following the wording of the spec: minutes and seconds
of a whole-second timestamp are obtained by division/remainder by 60 on
naturals, each zero-padded to two digits. -/

/-- Zero-pad the decimal representation of a natural to width two. -/
def specPad2 (n : ℕ) : String :=
  if (Nat.repr n).length < 2 then "0" ++ Nat.repr n else Nat.repr n

/-- The `(<startMM>:<startSS> - <endMM>:<endSS>)` timestamp of the spec,
for whole-second `start` and `end`. -/
def specTimestamp (a b : ℕ) : String :=
  "(" ++ specPad2 (a / 60) ++ ":" ++ specPad2 (a % 60) ++ " - " ++
    specPad2 (b / 60) ++ ":" ++ specPad2 (b % 60) ++ ")"

theorem roundHalfEven_intCast (k : ℤ) : roundHalfEven (k : ℚ) = k := by
  rw [roundHalfEven, Int.floor_intCast]
  norm_num

theorem fmt02_natCast (n : ℕ) : fmt02 (n : ℤ) = specPad2 n := rfl

theorem divmod60_natCast (a : ℕ) :
    divmod60 (a : ℚ) = (((a / 60 : ℕ) : ℚ), ((a % 60 : ℕ) : ℚ)) := by
  have hfloor : ⌊(a : ℚ) / 60⌋ = ((a / 60 : ℕ) : ℤ) := by
    rw [show ((60 : ℚ)) = ((60 : ℕ) : ℚ) by norm_num]
    exact Rat.floor_natCast_div_natCast a 60
  have hdm : 60 * (a / 60) + a % 60 = a := Nat.div_add_mod a 60
  have hq : (60 : ℚ) * ((a / 60 : ℕ) : ℚ) + ((a % 60 : ℕ) : ℚ) = (a : ℚ) := by
    exact_mod_cast congrArg (fun n : ℕ => (n : ℚ)) hdm
  rw [divmod60, hfloor, Prod.mk.injEq]
  refine ⟨by exact_mod_cast rfl, ?_⟩
  rw [Int.cast_natCast]
  linarith

/-! ## Provenance helpers -/

theorem splitRuns_speaker (l : List Seg) :
    ∀ run ∈ splitRuns l, ∀ x ∈ run, x.speaker = (run.headD default).speaker := by
  cases l with
  | nil => intro run hrun; simp [splitRuns] at hrun
  | cons s rest => exact splitRunsGo_speaker rest s [] (by simp)

theorem splitRuns_chain_head (l : List Seg) :
    List.Chain'
      (fun r1 r2 => (r1.headD default).speaker ≠ (r2.headD default).speaker)
      (splitRuns l) := by
  cases l with
  | nil => simp [splitRuns]
  | cons s rest => exact splitRunsGo_chain_head rest s []

theorem ids_singleton {s : Seg} (h : s.original_ids.length = 1) :
    s.original_ids = [s.original_ids.headD 0] := by
  cases hh : s.original_ids with
  | nil => rw [hh] at h; simp at h
  | cons a t =>
    rw [hh] at h
    have ht : t = [] := by
      simp only [List.length_cons] at h
      exact List.eq_nil_of_length_eq_zero (by omega)
    simp [ht]

theorem flatten_map_ids (xs : List Seg)
    (h : ∀ s ∈ xs, s.original_ids.length = 1) :
    (xs.map fun s => s.original_ids).flatten =
      xs.map fun s => s.original_ids.headD 0 := by
  induction xs with
  | nil => rfl
  | cons a t ih =>
    rw [List.map_cons, List.flatten_cons, ih fun x hx => h x (by simp [hx])]
    conv_lhs => rw [ids_singleton (h a (by simp))]
    rw [List.singleton_append, List.map_cons]

/-- With singleton `original_ids` (as the attach step produces), the collapse
loop preserves the flattened provenance of the kept segments, in order. -/
theorem outputSegments_ids (l : List Seg)
    (h : ∀ s ∈ l, s.original_ids.length = 1) :
    (outputSegments l).flatMap (fun s => s.original_ids) =
      (l.filter keep).flatMap fun s => s.original_ids := by
  rw [outputSegments_eq_runs, List.flatMap_def, List.map_map]
  have hmem : ∀ run ∈ splitRuns (l.filter keep),
      ((fun s => s.original_ids) ∘ mergeRun) run =
        (run.map fun s => s.original_ids).flatten := by
    intro run hrun
    have hne := splitRuns_ne_nil _ run hrun
    cases run with
    | nil => exact absurd rfl hne
    | cons f rest =>
      have hsub : ∀ x ∈ f :: rest, x.original_ids.length = 1 := by
        intro x hx
        have hxf : x ∈ (splitRuns (l.filter keep)).flatten :=
          List.mem_flatten.mpr ⟨f :: rest, hrun, hx⟩
        rw [splitRuns_flatten] at hxf
        exact h x (List.mem_of_mem_filter hxf)
      have hproj : ((fun s => s.original_ids) ∘ mergeRun) (f :: rest) =
          (mergeRun (f :: rest)).original_ids := rfl
      rw [hproj, mergeRun_eq, flatten_map_ids _ hsub]
      dsimp only
      conv_lhs => rw [ids_singleton (hsub f (by simp))]
      rw [List.singleton_append, List.map_cons]
  rw [List.map_congr_left hmem]
  have h1 : (splitRuns (l.filter keep)).map
        (fun run => (run.map fun s => s.original_ids).flatten) =
      ((splitRuns (l.filter keep)).map
        (List.map fun s => s.original_ids)).map List.flatten := by
    rw [List.map_map]
    exact List.map_congr_left fun run _ => rfl
  rw [h1, ← List.flatten_flatten, ← List.map_flatten, splitRuns_flatten,
    ← List.flatMap_def]

/-! ## Spec-side description of a collapsed run -/

theorem intercalate_go_eq (ts : List String) :
    ∀ acc : String, String.intercalate.go acc " " ts =
      ts.foldl (fun a b => a ++ " " ++ b) acc := by
  induction ts with
  | nil => intro acc; rfl
  | cons t ts' ih => intro acc; rw [String.intercalate.go, List.foldl_cons, ih]

theorem intercalate_space (t : String) (ts : List String) :
    String.intercalate " " (t :: ts) =
      ts.foldl (fun a b => a ++ " " ++ b) t := by
  rw [String.intercalate, intercalate_go_eq]

/-- The merged segment the spec prescribes for one maximal run of kept
segments: the speaker and `start` of the first member, the `end` of the last,
the space-joined trimmed texts in order, and the ids of the run members
in order. -/
def specRunMerge (run : List Seg) : Seg :=
  { speaker := (run.headD default).speaker
    text := String.intercalate " " (run.map fun s => stripSpaces s.text)
    original_ids := (run.map fun s => s.original_ids).flatten
    start := (run.headD default).start
    «end» := (run.getLastD default).«end» }

/-- C1: for every time-sorted input of tagged segments, the maximal
same-speaker runs of the `"."`-filtered sequence (`splitRuns` — which
covers the filtered sequence, has nonempty constant-speaker runs, and
adjacent runs with different speakers) are each merged into exactly one
output segment with the `start` of the first member, the `end` of the last,
the space-joined trimmed texts in order, and the member ids in order. -/
theorem collapse_correctness (l : List Seg)
    (hsorted : l.Pairwise fun a b => a.start ≤ b.start)
    (hsing : ∀ s ∈ l, s.original_ids.length = 1)
    (htrim : ∀ s ∈ l, stripSpaces s.text = s.text) :
    (splitRuns (l.filter keep)).flatten = l.filter keep ∧
    (∀ run ∈ splitRuns (l.filter keep),
      run ≠ [] ∧ ∀ x ∈ run, x.speaker = (run.headD default).speaker) ∧
    List.Chain'
      (fun r1 r2 => (r1.headD default).speaker ≠ (r2.headD default).speaker)
      (splitRuns (l.filter keep)) ∧
    merge l = (splitRuns (l.filter keep)).map specRunMerge := by
  refine ⟨splitRuns_flatten _,
    fun run hrun => ⟨splitRuns_ne_nil _ run hrun, splitRuns_speaker _ run hrun⟩,
    splitRuns_chain_head _, ?_⟩
  rw [merge, sortStart_of_pairwise l hsorted, outputSegments_eq_runs]
  apply List.map_congr_left
  intro run hrun
  have hne := splitRuns_ne_nil _ run hrun
  cases run with
  | nil => exact absurd rfl hne
  | cons f rest =>
    have hmem : ∀ x ∈ f :: rest, x ∈ l := by
      intro x hx
      have hxf : x ∈ (splitRuns (l.filter keep)).flatten :=
        List.mem_flatten.mpr ⟨f :: rest, hrun, hx⟩
      rw [splitRuns_flatten] at hxf
      exact List.mem_of_mem_filter hxf
    rw [mergeRun_eq, specRunMerge]
    simp only [Seg.mk.injEq, List.headD_cons, List.getLastD_cons]
    refine ⟨by trivial, ?_, ?_, by trivial, by trivial⟩
    · have hmap : (f :: rest).map (fun s => stripSpaces s.text) =
          (f :: rest).map fun s => s.text :=
        List.map_congr_left fun x hx => htrim x (hmem x hx)
      rw [hmap, List.map_cons, intercalate_space, List.foldl_map]
    · have hsub : ∀ x ∈ f :: rest, x.original_ids.length = 1 :=
        fun x hx => hsing x (hmem x hx)
      rw [flatten_map_ids _ hsub, List.map_cons]
      conv_lhs => rw [ids_singleton (hsub f (by simp))]
      rw [List.singleton_append]

/-- Witness for C1: the two-consecutive-same-speaker scenario of the spec. -/
theorem collapse_correctness_witness :
    (([⟨"A", "Part one", [1], 0, 2⟩, ⟨"A", "part two", [2], 2, 4⟩] :
        List Seg).Pairwise fun a b => a.start ≤ b.start) ∧
    (∀ s ∈ ([⟨"A", "Part one", [1], 0, 2⟩, ⟨"A", "part two", [2], 2, 4⟩] :
        List Seg), s.original_ids.length = 1) ∧
    (∀ s ∈ ([⟨"A", "Part one", [1], 0, 2⟩, ⟨"A", "part two", [2], 2, 4⟩] :
        List Seg), stripSpaces s.text = s.text) ∧
    merge [⟨"A", "Part one", [1], 0, 2⟩, ⟨"A", "part two", [2], 2, 4⟩] =
      (splitRuns (([⟨"A", "Part one", [1], 0, 2⟩,
          ⟨"A", "part two", [2], 2, 4⟩] : List Seg).filter keep)).map
        specRunMerge :=
  ⟨by decide, by decide, by decide,
    (collapse_correctness _ (by decide) (by decide) (by decide)).2.2.2⟩

/-! ## The importer performs no validation (C2) -/

/-- C2 counterexample: the importer does *not* fail on a raw segment
with `end < start`; it silently produces the tagged segment. -/
theorem attach_end_lt_start_counterexample :
    ((3 : ℚ) < 5) ∧
    attach [⟨1, " x ", 5, 3⟩] "A" = [⟨"A", "x", [1], 5, 3⟩] :=
  ⟨by decide, by decide⟩

/-- C2 amended: the importer performs no validation: every input
RawSegment — including one violating `end ≥ start` — yields its tagged
segment (speaker attached, text stripped of ASCII spaces); no
`InvalidSegment` error exists in the code. -/
theorem attach_no_validation (raws : List RawSegment) (sp : String)
    (r : RawSegment) (hr : r ∈ raws) (_hlt : r.«end» < r.start) :
    (⟨sp, stripSpaces r.text, [r.id], r.start, r.«end»⟩ : Seg) ∈
      attach raws sp := by
  rw [attach]
  exact List.mem_map.mpr ⟨r, hr, rfl⟩

/-- Witness for the amended C2. -/
theorem attach_no_validation_witness :
    ((⟨1, " x ", 5, 3⟩ : RawSegment) ∈ [(⟨1, " x ", 5, 3⟩ : RawSegment)]) ∧
    ((⟨1, " x ", 5, 3⟩ : RawSegment).«end» <
      (⟨1, " x ", 5, 3⟩ : RawSegment).start) ∧
    (⟨"A", stripSpaces (⟨1, " x ", 5, 3⟩ : RawSegment).text, [1], 5, 3⟩ :
        Seg) ∈ attach [⟨1, " x ", 5, 3⟩] "A" :=
  ⟨by decide, by decide,
    attach_no_validation [⟨1, " x ", 5, 3⟩] "A" ⟨1, " x ", 5, 3⟩
      (by decide) (by decide)⟩

/-! ## The filter drops exactly the `"."` segments (C3) -/

theorem flatMap_ids_length (m : List Seg)
    (hm : ∀ s ∈ m, s.original_ids.length = 1) :
    (m.flatMap fun s => s.original_ids).length = m.length := by
  induction m with
  | nil => rfl
  | cons a t ih =>
    rw [List.flatMap_cons, List.length_append, hm a (by simp),
      ih fun x hx => hm x (by simp [hx]), List.length_cons]
    omega

/-- C3: merge drops exactly the segments whose (importer-trimmed) text
is exactly `"."`: pre-dropping them changes nothing — so no `"."` segment
is ever seeded or absorbed — and, with the singleton importer-produced
`original_ids`, every kept segment (whitespace-only texts included) is
absorbed into exactly one output segment. -/
theorem merge_filters_exactly_dot (l : List Seg)
    (hsing : ∀ s ∈ l, s.original_ids.length = 1) :
    merge l = outputSegments ((sortStart l).filter keep) ∧
    ((merge l).flatMap fun s => s.original_ids).length =
      (l.filter keep).length := by
  constructor
  · rw [merge, outputSegments_eq_collapseRec, collapseRec_filter,
      ← outputSegments_eq_collapseRec]
  · have hsing' : ∀ s ∈ sortStart l, s.original_ids.length = 1 :=
      fun s hs => hsing s ((sortStart_perm l).mem_iff.mp hs)
    rw [merge, outputSegments_ids _ hsing']
    have hperm : (((sortStart l).filter keep)).Perm (l.filter keep) :=
      (sortStart_perm l).filter keep
    rw [flatMap_ids_length _ fun s hs =>
      hsing' s (List.mem_of_mem_filter hs)]
    exact hperm.length_eq

/-- Witness for C3: a whitespace-only segment is kept, the `"."` one is
dropped. -/
theorem merge_filters_exactly_dot_witness :
    (∀ s ∈ ([⟨"A", "", [1], 0, 1⟩, ⟨"B", ".", [2], 1, 2⟩] : List Seg),
      s.original_ids.length = 1) ∧
    (merge [⟨"A", "", [1], 0, 1⟩, ⟨"B", ".", [2], 1, 2⟩] =
      outputSegments ((sortStart
        [⟨"A", "", [1], 0, 1⟩, ⟨"B", ".", [2], 1, 2⟩]).filter keep) ∧
    ((merge [⟨"A", "", [1], 0, 1⟩,
        ⟨"B", ".", [2], 1, 2⟩]).flatMap fun s => s.original_ids).length =
      (([⟨"A", "", [1], 0, 1⟩,
        ⟨"B", ".", [2], 1, 2⟩] : List Seg).filter keep).length) :=
  ⟨by decide, merge_filters_exactly_dot _ (by decide)⟩

/-! ## Provenance completeness of the pipeline (C4) -/

theorem attach_ids (rs : List RawSegment) (sp : String) :
    (attach rs sp).flatMap (fun s => s.original_ids) = rs.map fun r => r.id := by
  induction rs with
  | nil => rfl
  | cons r t ih =>
    simp only [attach, List.map_cons, List.flatMap_cons] at ih ⊢
    rw [ih]
    rfl

theorem attach_filter (rs : List RawSegment) (sp : String) :
    (attach rs sp).filter keep =
      attach (rs.filter fun r => stripSpaces r.text ≠ ".") sp := by
  rw [attach, List.filter_map, attach]
  congr 1

/-- C4: the multiset union of all `original_ids` over the pipeline
output equals the multiset of ids of the raw input segments whose trimmed
text is not exactly `"."`. -/
theorem pipeline_provenance (ra rb : List RawSegment) (na nb : String) :
    (((pipeline ra rb na nb).flatMap fun s => s.original_ids) : Multiset ℤ) =
      ((((ra ++ rb).filter fun r =>
          stripSpaces r.text ≠ ".").map fun r => r.id) : Multiset ℤ) := by
  rw [Multiset.coe_eq_coe, pipeline]
  have hsing : ∀ s ∈ sortStart (attach ra na ++ attach rb nb),
      s.original_ids.length = 1 := by
    intro s hs
    have hsm := (sortStart_perm (attach ra na ++ attach rb nb)).mem_iff.mp hs
    rcases List.mem_append.mp hsm with h | h <;>
    · rw [attach] at h
      obtain ⟨r, _, rfl⟩ := List.mem_map.mp h
      rfl
  rw [outputSegments_ids _ hsing]
  have h1 : (((sortStart (attach ra na ++ attach rb nb)).filter keep)).Perm
      ((attach ra na ++ attach rb nb).filter keep) :=
    (sortStart_perm _).filter keep
  have h2 : ((((sortStart (attach ra na ++ attach rb nb)).filter
        keep)).flatMap fun s => s.original_ids).Perm
      (((attach ra na ++ attach rb nb).filter keep).flatMap
        fun s => s.original_ids) := by
    rw [List.flatMap_def, List.flatMap_def]
    exact (h1.map _).flatten
  refine h2.trans ?_
  rw [List.filter_append, List.flatMap_append, attach_filter, attach_filter,
    attach_ids, attach_ids, List.filter_append, List.map_append]

/-! ## Remaining claims -/

/-- C5: the ordering step is a stable sort on `start` ascending: the
result is pairwise ordered by `start`, and for every `start` value the
subsequence of segments carrying it is preserved verbatim from the
concatenated input — no secondary key is applied. -/
theorem sort_stable (l : List Seg) :
    ((sortStart l).Pairwise fun a b => a.start ≤ b.start) ∧
    ∀ q : ℚ, (sortStart l).filter (fun s => s.start = q) =
      l.filter fun s => s.start = q :=
  ⟨sortStart_pairwise l, fun q => sortStart_filter_start l q⟩

/-- C6: merge is idempotent: `merge (merge x) = merge x` for every
input `x` (the output is sorted, `"."`-free, and speaker-alternating, so a
second pass re-sorts and re-collapses it to itself). -/
theorem merge_idempotent (l : List Seg) : merge (merge l) = merge l := by
  have hsorted : (merge l).Pairwise fun a b => a.start ≤ b.start := by
    rw [merge]
    exact outputSegments_pairwise _ (sortStart_pairwise l)
  have hnd : ∀ s ∈ merge l, s.text ≠ "." := by
    rw [merge]
    exact outputSegments_text_ne _
  have hch : List.Chain' (fun a b => a.speaker ≠ b.speaker) (merge l) := by
    rw [merge]
    exact outputSegments_chain _
  rw [show merge (merge l) = outputSegments (sortStart (merge l)) from rfl,
    sortStart_of_pairwise _ hsorted, outputSegments_eq_collapseRec,
    collapseRec_of_alternating _ hnd hch]

/-- C7: merge never fails on well-formed input: an empty input yields
an empty output, and a single segment whose trimmed text is not `"."` is
returned unchanged. -/
theorem merge_empty_single :
    merge [] = [] ∧
    ∀ s : Seg, stripSpaces s.text ≠ "." → merge [s] = [s] := by
  constructor
  · rw [merge, sortStart, List.mergeSort_nil]
    rfl
  · intro s hs
    have hdot : s.text ≠ "." := by
      intro h
      rw [h] at hs
      exact hs (by decide)
    rw [merge, sortStart, List.mergeSort_singleton,
      outputSegments_eq_collapseRec]
    simp [collapseRec, collapseGo, hdot]

/-- Witness for C7. -/
theorem merge_empty_single_witness :
    (stripSpaces "hi" ≠ ".") ∧
    merge [⟨"A", "hi", [1], 0, 2⟩] = [⟨"A", "hi", [1], 0, 2⟩] :=
  ⟨by decide, merge_empty_single.2 _ (by decide)⟩

theorem roundHalfEven_natCast (n : ℕ) : roundHalfEven (n : ℚ) = (n : ℤ) := by
  rw [show ((n : ℚ)) = (((n : ℤ) : ℚ)) by push_cast; ring]
  exact roundHalfEven_intCast _

/-- Spec-side `MM:SS` of a whole-second timestamp: division and remainder
by 60, zero-padded to two digits. -/
def specMMSS (n : ℕ) : String := specPad2 (n / 60) ++ ":" ++ specPad2 (n % 60)

/-- C8: each merged segment renders as the level-2 heading
`## [<speaker>] (<MM>:<SS> - <MM>:<SS>)`, followed by the text and a blank
line, with minutes/seconds obtained by division/remainder by 60 and
zero-padded to two digits. -/
theorem renderSegment_format (m : Seg) (a b : ℕ)
    (ha : m.start = (a : ℚ)) (hb : m.«end» = (b : ℚ)) :
    renderSegment m = "## [" ++ m.speaker ++ "] (" ++ specMMSS a ++ " - " ++
      specMMSS b ++ ")\n" ++ m.text ++ "\n\n" := by
  rw [renderSegment, ha, hb, divmod60_natCast, divmod60_natCast]
  dsimp only
  rw [roundHalfEven_natCast, roundHalfEven_natCast, roundHalfEven_natCast,
    roundHalfEven_natCast, fmt02_natCast, fmt02_natCast, fmt02_natCast,
    fmt02_natCast, specMMSS, specMMSS]
  simp [String.append_assoc]

/-- Witness for C8: the rendering scenario of the spec, start 65 end 130. -/
theorem renderSegment_format_witness :
    ((⟨"A", "hi", [1], 65, 130⟩ : Seg).start = ((65 : ℕ) : ℚ)) ∧
    ((⟨"A", "hi", [1], 65, 130⟩ : Seg).«end» = ((130 : ℕ) : ℚ)) ∧
    renderSegment ⟨"A", "hi", [1], 65, 130⟩ =
      "## [A] (01:05 - 02:10)\nhi\n\n" := by
  refine ⟨by decide, by decide, ?_⟩
  rw [renderSegment_format ⟨"A", "hi", [1], 65, 130⟩ 65 130 (by decide)
    (by decide)]
  decide

/-- C9: absorption appends only the *first* element of the `original_ids`
of the absorbed segment: the provenance of the output is, per maximal run,
the full id list of the head segment followed by only the head id of every
absorbed member — and a record carrying `[2, 3]` that is absorbed loses the
id `3`. -/
theorem absorb_first_id_only :
    (∀ l : List Seg,
      (outputSegments l).flatMap (fun s => s.original_ids) =
        (splitRuns (l.filter keep)).flatMap fun run =>
          (run.headD default).original_ids ++
            run.tail.map fun s => s.original_ids.headD 0) ∧
    (outputSegments [⟨"A", "a", [1], 0, 1⟩,
        ⟨"A", "b", [2, 3], 1, 2⟩]).flatMap (fun s => s.original_ids) =
      [1, 2] := by
  constructor
  · intro l
    rw [outputSegments_eq_runs, List.flatMap_def, List.flatMap_def,
      List.map_map]
    congr 1
    apply List.map_congr_left
    intro run hrun
    have hne := splitRuns_ne_nil _ run hrun
    cases run with
    | nil => exact absurd rfl hne
    | cons f rest =>
      show (mergeRun (f :: rest)).original_ids = _
      rw [mergeRun_eq]
      simp
  · decide

/-- C10: in the collapse output, adjacent segments always have
different speakers — for `merge`, and for the collapse loop applied to any
(prefix of the) input, i.e. after every loop iteration. -/
theorem adjacent_speakers_differ :
    (∀ (l : List Seg) (i : ℕ) (h : i + 1 < (merge l).length),
      ((merge l).get ⟨i, Nat.lt_of_succ_lt h⟩).speaker ≠
        ((merge l).get ⟨i + 1, h⟩).speaker) ∧
    (∀ (l : List Seg) (i : ℕ) (h : i + 1 < (outputSegments l).length),
      ((outputSegments l).get ⟨i, Nat.lt_of_succ_lt h⟩).speaker ≠
        ((outputSegments l).get ⟨i + 1, h⟩).speaker) := by
  constructor
  · intro l i h
    have hch : List.Chain' (fun a b => a.speaker ≠ b.speaker) (merge l) := by
      rw [merge]
      exact outputSegments_chain _
    exact List.chain'_iff_get.mp hch i (by omega)
  · intro l i h
    exact List.chain'_iff_get.mp (outputSegments_chain l) i (by omega)

/-- Witness for C10. -/
theorem adjacent_speakers_differ_witness :
    ((outputSegments [⟨"A", "a", [1], 0, 1⟩, ⟨"B", "b", [1], 1, 3⟩]).get
        ⟨0, by decide⟩).speaker ≠
      ((outputSegments [⟨"A", "a", [1], 0, 1⟩, ⟨"B", "b", [1], 1, 3⟩]).get
        ⟨0 + 1, by decide⟩).speaker :=
  adjacent_speakers_differ.2 [⟨"A", "a", [1], 0, 1⟩, ⟨"B", "b", [1], 1, 3⟩]
    0 (by decide)

end WhisperTranscribe
